import Mathlib

/-!
Shallow embedding of the KNN occupancy-detection notebook
(`Occupancy Detection-checkpoint.ipynb`).

The only non-trivial logic in the repository is the function `KNN`
(notebook cell 17) and the training-error sweep (cell 21):

  def KNN(x, y, x_q, K=3):
      target_labels = np.unique(y)
      target_labels_counts = np.zeros(len(target_labels))
      d = np.sqrt(np.sum((x - x_q)**2, axis=1))
      i = np.argsort(d)
      for k in np.arange(len(target_labels)):
          target_labels_counts[k] = np.sum(y[i[0:K]]==target_labels[k])
      l = np.argmax(target_labels_counts)
      return target_labels[l]

  N = y_training.shape[0]
  for K in np.arange(1, 34, 2):
      y_prediction = np.zeros(N)
      for n in np.arange(N):
          x_q = x_training_selected[n]
          y_prediction[n] = KNN(x_training_selected, y_training, x_q, K)
      classification_error = np.sum(y_training != y_prediction) / N

Modelling choices, each forced by a construct of the source:

* Numbers (features and labels) are modelled as `ℚ` (exact arithmetic in
  place of float64; every claim is about ordering and counting, not about
  rounding).
* The source computes `sqrt` of the sum of squares and then only ever
  *sorts* the distances (`np.argsort`).  `Real.sqrt` is strictly monotone
  on nonnegative arguments, so sorting by the squared distance produces
  exactly the same index order; we therefore keep the squared distance and
  stay inside `ℚ`.  (`sqDistRow` is the square of the source's `d(n)`.)
* `x - x_q` uses numpy broadcasting: shapes `(N, dim)` and `(q,)` are
  compatible iff `dim = q`, or `q = 1`, or `dim = 1`; any other query
  dimensionality raises a `ValueError`.  `bsub` reproduces this rule and
  the fallible cases surface as `Option`.
* Python's slice `i[0:K]` never fails: for `K ≥ 0` it takes at most the
  first `K` elements, for `K < 0` the stop index is `len + K` clamped at
  `0`.  `pyTake` reproduces this (the source never validates `K`).
* `np.argsort` uses an unstable but deterministic sort; we model it with
  the deterministic `List.insertionSort` on indices (the spec explicitly
  allows any consistent deterministic sort for equal keys).
* `np.unique` returns the distinct values in ascending order
  (`npUnique`); `np.argmax` returns the index of the *first* maximal
  entry (`argmaxIdx`) and raises `ValueError` on an empty array — which
  in `KNN` happens exactly when the label vector `y` is empty, hence the
  `if y = [] then none` branch.
-/

/-- Sum of squares of the entries of a list: `np.sum(v**2)`. -/
def sumSq (l : List ℚ) : ℚ := (l.map fun v => v * v).sum

/-- Numpy broadcast subtraction of a query vector `q` from one reference
row `row` (one row of `x - x_q`): elementwise when the lengths agree,
scalar broadcast when either side has length 1, and an error (`none`) for
any other shape combination. -/
def bsub (row q : List ℚ) : Option (List ℚ) :=
  if row.length = q.length then some (List.zipWith (· - ·) row q)
  else if q.length = 1 then some (row.map fun v => v - q.headI)
  else if row.length = 1 then some (q.map fun v => row.headI - v)
  else none

/-- Squared Euclidean distance from one reference row to the query:
one entry of `np.sum((x - x_q)**2, axis=1)`.  The source additionally
takes `np.sqrt`, which is strictly monotone and only ever fed to
`np.argsort`, so the squared value induces the identical index order. -/
def sqDistRow (row q : List ℚ) : Option ℚ := (bsub row q).map sumSq

/-- The distance vector `d = np.sqrt(np.sum((x - x_q)**2, axis=1))`
(squared, see `sqDistRow`); `none` when broadcasting fails for some row. -/
def distanceList (x : List (List ℚ)) (x_q : List ℚ) : Option (List ℚ) :=
  match x with
  | [] => some []
  | row :: rest =>
    match sqDistRow row x_q, distanceList rest x_q with
    | some dv, some ds => some (dv :: ds)
    | _, _ => none

/-- The index permutation `i = np.argsort(d)`: the indices
`0, …, len d - 1` sorted by ascending distance value (deterministic
insertion sort; numpy's quicksort is likewise deterministic, and the spec
allows any fixed order for equal keys). -/
def argsort (d : List ℚ) : List ℕ :=
  List.insertionSort (fun a b => d.getD a 0 ≤ d.getD b 0) (List.range d.length)

/-- Python slice `l[0:K]` for an integer `K`: for `K ≥ 0` the first `K`
elements (fewer if the list is shorter), for `K < 0` everything up to the
stop index `len + K` clamped at zero.  Slicing never raises. -/
def pyTake (K : ℤ) (l : List α) : List α :=
  if 0 ≤ K then l.take K.toNat else l.take (l.length - (-K).toNat)

/-- The sorted list of distinct labels: `target_labels = np.unique(y)`. -/
def npUnique (y : List ℚ) : List ℚ := List.insertionSort (· ≤ ·) y.dedup

/-- Maximum of a list of counts (`0` for the empty list). -/
def listMax : List ℕ → ℕ
  | [] => 0
  | a :: l => max a (listMax l)

/-- Index of the first maximal entry: `np.argmax` (numpy documents that
the first occurrence of the maximum is returned). -/
def argmaxIdx : List ℕ → ℕ
  | [] => 0
  | a :: l => if listMax l ≤ a then 0 else argmaxIdx l + 1

/-- The labels of the `K` nearest neighbours: `y[i[0:K]]`, where `d` is
the distance vector and `i = np.argsort(d)`. -/
def neighborLabels (y d : List ℚ) (K : ℤ) : List ℚ :=
  (pyTake K (argsort d)).map fun j => y.getD j 0

/-- The per-label vote counts `target_labels_counts`:
entry `k` is `np.sum(y[i[0:K]] == target_labels[k])`. -/
def knnCounts (y neigh : List ℚ) : List ℕ :=
  (npUnique y).map fun t => neigh.count t

/-- The classifier `KNN(x, y, x_q, K)` of notebook cell 17.  Returns
`none` exactly where the Python call raises: a broadcasting failure in
`x - x_q`, or `np.argmax` on the empty count array (which happens iff
`y` is empty). -/
def KNN (x : List (List ℚ)) (y : List ℚ) (x_q : List ℚ) (K : ℤ) : Option ℚ :=
  match distanceList x x_q with
  | none => none
  | some d =>
    if y = [] then none
    else some ((npUnique y).getD (argmaxIdx (knnCounts y (neighborLabels y d K))) 0)

/-- The prediction loop of notebook cell 21 restricted to an index list:
`y_prediction[n] = KNN(x, y, x[n], K)` for each `n`; `none` as soon as
one call raises. -/
def y_prediction (x : List (List ℚ)) (y : List ℚ) (K : ℤ) : List ℕ → Option (List ℚ)
  | [] => some []
  | n :: ns =>
    match KNN x y (x.getD n []) K, y_prediction x y K ns with
    | some p, some ps => some (p :: ps)
    | _, _ => none

/-- Number of positions where two parallel label vectors differ:
`np.sum(y != y_prediction)`. -/
def mismatches : List ℚ → List ℚ → ℕ
  | a :: as, b :: bs => (if a = b then 0 else 1) + mismatches as bs
  | _, _ => 0

/-- The training-error evaluation of notebook cell 21 for one value of
`K`: classify every example of the dataset against the dataset itself and
report `np.sum(y != y_prediction) / N`. -/
def classification_error (x : List (List ℚ)) (y : List ℚ) (K : ℤ) : Option ℚ :=
  match y_prediction x y K (List.range y.length) with
  | none => none
  | some preds => some ((mismatches y preds : ℚ) / (y.length : ℚ))

/-! Basic facts about the embedded operations. -/

theorem sumSq_cons (v : ℚ) (l : List ℚ) : sumSq (v :: l) = v * v + sumSq l := by
  simp [sumSq]

theorem sumSq_nonneg (l : List ℚ) : 0 ≤ sumSq l := by
  refine List.sum_nonneg ?_
  intro v hv
  rcases List.mem_map.1 hv with ⟨w, _, rfl⟩
  exact mul_self_nonneg w

theorem sumSq_zipWith_sub_eq_zero_iff :
    ∀ (a b : List ℚ), a.length = b.length →
      (sumSq (List.zipWith (fun u v => u - v) a b) = 0 ↔ a = b) := by
  intro a
  induction a with
  | nil =>
    intro b hb
    cases b with
    | nil => simp [sumSq]
    | cons v bs => simp at hb
  | cons u as ih =>
    intro b hb
    cases b with
    | nil => simp at hb
    | cons v bs =>
      have hlen : as.length = bs.length := by simpa using hb
      constructor
      · intro h
        have hterm : 0 ≤ (u - v) * (u - v) := mul_self_nonneg _
        have hrest : 0 ≤ sumSq (List.zipWith (fun u v => u - v) as bs) :=
          sumSq_nonneg _
        have hsum : (u - v) * (u - v)
            + sumSq (List.zipWith (fun u v => u - v) as bs) = 0 := by
          simpa [sumSq] using h
        have h1 : (u - v) * (u - v) = 0 := le_antisymm (by linarith) hterm
        have h2 : sumSq (List.zipWith (fun u v => u - v) as bs) = 0 :=
          le_antisymm (by linarith) hrest
        have huv : u = v := by
          have := mul_self_eq_zero.1 h1
          exact sub_eq_zero.1 this
        have htail : as = bs := (ih bs hlen).1 h2
        rw [huv, htail]
      · intro h
        injection h with h1 h2
        subst h1; subst h2
        have htail : sumSq (List.zipWith (fun u v => u - v) as as) = 0 :=
          (ih as rfl).2 rfl
        rw [List.zipWith_cons_cons, sumSq_cons, htail]
        ring

theorem sqDistRow_nonneg {row q : List ℚ} {v : ℚ}
    (h : sqDistRow row q = some v) : 0 ≤ v := by
  rcases Option.map_eq_some'.1 h with ⟨l, _, rfl⟩
  exact sumSq_nonneg l

theorem sqDistRow_self {row : List ℚ} : sqDistRow row row = some 0 := by
  have h : sumSq (List.zipWith (fun u v => u - v) row row) = 0 :=
    (sumSq_zipWith_sub_eq_zero_iff row row rfl).2 rfl
  unfold sqDistRow bsub
  rw [if_pos rfl]
  simp only [Option.map_some']
  rw [h]

theorem sqDistRow_pos_of_ne {row q : List ℚ} {v : ℚ}
    (hlen : row.length = q.length) (hne : row ≠ q)
    (h : sqDistRow row q = some v) : 0 < v := by
  have hb : bsub row q = some (List.zipWith (fun u v => u - v) row q) := by
    simp [bsub, hlen]
  have hv : v = sumSq (List.zipWith (fun u v => u - v) row q) := by
    rw [sqDistRow, hb] at h
    simpa using h.symm
  rcases lt_or_eq_of_le (sumSq_nonneg (List.zipWith (fun u v => u - v) row q)) with hlt | heq
  · exact hv ▸ hlt
  · exact absurd ((sumSq_zipWith_sub_eq_zero_iff row q hlen).1 heq.symm) hne

theorem distanceList_length :
    ∀ {x : List (List ℚ)} {q : List ℚ} {d : List ℚ},
      distanceList x q = some d → d.length = x.length := by
  intro x
  induction x with
  | nil => intro q d h; simp [distanceList] at h; simp [h.symm]
  | cons row rest ih =>
    intro q d h
    simp only [distanceList] at h
    cases hsq : sqDistRow row q with
    | none => rw [hsq] at h; exact absurd h (by simp)
    | some dv =>
      cases hr : distanceList rest q with
      | none => rw [hsq, hr] at h; exact absurd h (by simp)
      | some ds =>
        rw [hsq, hr] at h
        have hd : d = dv :: ds := by simpa using h.symm
        subst hd
        simp [ih hr]

theorem distanceList_some :
    ∀ {x : List (List ℚ)} {q : List ℚ},
      (∀ r ∈ x, r.length = q.length) → ∃ d, distanceList x q = some d := by
  intro x
  induction x with
  | nil => intro q _; exact ⟨[], rfl⟩
  | cons row rest ih =>
    intro q h
    have hrow : row.length = q.length := h row (List.mem_cons_self _ _)
    have hsq : sqDistRow row q
        = some (sumSq (List.zipWith (fun u v => u - v) row q)) := by
      simp [sqDistRow, bsub, hrow]
    rcases ih (fun r hr => h r (List.mem_cons_of_mem _ hr)) with ⟨ds, hds⟩
    refine ⟨sumSq (List.zipWith (fun u v => u - v) row q) :: ds, ?_⟩
    simp [distanceList, hsq, hds]

theorem distanceList_getD :
    ∀ {x : List (List ℚ)} {q : List ℚ} {d : List ℚ},
      distanceList x q = some d → ∀ {n : ℕ}, n < x.length →
        sqDistRow (x.getD n []) q = some (d.getD n 0) := by
  intro x
  induction x with
  | nil => intro q d _ n hn; simp at hn
  | cons row rest ih =>
    intro q d h n hn
    simp only [distanceList] at h
    cases hsq : sqDistRow row q with
    | none => rw [hsq] at h; exact absurd h (by simp)
    | some dv =>
      cases hr : distanceList rest q with
      | none => rw [hsq, hr] at h; exact absurd h (by simp)
      | some ds =>
        rw [hsq, hr] at h
        have hd : d = dv :: ds := by simpa using h.symm
        subst hd
        cases n with
        | zero => simpa using hsq
        | succ m =>
          have hm : m < rest.length := by simpa using hn
          simpa using ih hr hm

theorem distanceList_none {x : List (List ℚ)} {q row : List ℚ}
    (hrow : row ∈ x) (hnone : sqDistRow row q = none) :
    distanceList x q = none := by
  induction x with
  | nil => simp at hrow
  | cons r rest ih =>
    rcases List.mem_cons.1 hrow with h | h
    · subst h
      simp [distanceList, hnone]
    · simp only [distanceList]
      rw [ih h]
      cases sqDistRow r q <;> rfl

theorem pyTake_of_length_le {K : ℤ} {l : List α}
    (h : (l.length : ℤ) ≤ K) : pyTake K l = l := by
  have h0 : 0 ≤ K := le_trans (Int.ofNat_nonneg _) h
  have hlen : l.length ≤ K.toNat := (Int.le_toNat h0).2 h
  simp [pyTake, h0, List.take_of_length_le hlen]

theorem pyTake_zero (l : List α) : pyTake 0 l = [] := by
  simp [pyTake]

theorem pyTake_one (l : List α) : pyTake 1 l = l.take 1 := by
  simp [pyTake]

theorem argsort_perm (d : List ℚ) : (argsort d).Perm (List.range d.length) :=
  List.perm_insertionSort _ _

theorem argsort_length (d : List ℚ) : (argsort d).length = d.length := by
  have := (argsort_perm d).length_eq
  simpa using this

theorem argsort_mem {d : List ℚ} {j : ℕ} : j ∈ argsort d ↔ j < d.length := by
  rw [(argsort_perm d).mem_iff, List.mem_range]

theorem argsort_sorted (d : List ℚ) :
    (argsort d).Sorted (fun a b => d.getD a 0 ≤ d.getD b 0) := by
  haveI : IsTotal ℕ (fun a b => d.getD a 0 ≤ d.getD b 0) :=
    ⟨fun a b => le_total _ _⟩
  haveI : IsTrans ℕ (fun a b => d.getD a 0 ≤ d.getD b 0) :=
    ⟨fun a b c hab hbc => le_trans hab hbc⟩
  exact List.sorted_insertionSort _ _

theorem argsort_ne_nil {d : List ℚ} (h : d ≠ []) : argsort d ≠ [] := by
  intro hnil
  have hlen := argsort_length d
  rw [hnil] at hlen
  exact h (List.length_eq_zero.1 hlen.symm)

theorem argsort_headI_lt {d : List ℚ} (h : d ≠ []) :
    (argsort d).headI < d.length := by
  rcases List.exists_cons_of_ne_nil (argsort_ne_nil h) with ⟨a, t, ha⟩
  have hmem : a ∈ argsort d := by rw [ha]; exact List.mem_cons_self a t
  have hlt := argsort_mem.1 hmem
  simpa [ha] using hlt

theorem argsort_headI_min {d : List ℚ} (h : d ≠ []) :
    ∀ j < d.length, d.getD ((argsort d).headI) 0 ≤ d.getD j 0 := by
  intro j hj
  rcases List.exists_cons_of_ne_nil (argsort_ne_nil h) with ⟨a, t, ha⟩
  have hsorted := argsort_sorted d
  rw [ha] at hsorted
  have hj' : j ∈ argsort d := argsort_mem.2 hj
  rw [ha] at hj'
  rcases List.mem_cons.1 hj' with rfl | hmem
  · simp [ha]
  · simpa [ha] using List.rel_of_sorted_cons hsorted j hmem

theorem le_listMax {a : ℕ} : ∀ {l : List ℕ}, a ∈ l → a ≤ listMax l := by
  intro l
  induction l with
  | nil => intro h; simp at h
  | cons b t ih =>
    intro h
    rcases List.mem_cons.1 h with rfl | hmem
    · exact le_max_left _ _
    · exact le_trans (ih hmem) (le_max_right _ _)

theorem listMax_le {b : ℕ} : ∀ {l : List ℕ}, (∀ a ∈ l, a ≤ b) → listMax l ≤ b := by
  intro l
  induction l with
  | nil => intro _; simp [listMax]
  | cons c t ih =>
    intro h
    simp only [listMax]
    exact max_le (h c (List.mem_cons_self _ _))
      (ih fun a ha => h a (List.mem_cons_of_mem _ ha))

theorem argmaxIdx_lt : ∀ {l : List ℕ}, l ≠ [] → argmaxIdx l < l.length := by
  intro l
  induction l with
  | nil => intro h; exact absurd rfl h
  | cons a t ih =>
    intro _
    by_cases h : listMax t ≤ a
    · simp [argmaxIdx, h]
    · have ht : t ≠ [] := by
        intro hnil
        rw [hnil] at h
        exact h (Nat.zero_le a)
      simp only [argmaxIdx, if_neg h, List.length_cons]
      exact Nat.succ_lt_succ (ih ht)

theorem getD_argmaxIdx : ∀ (l : List ℕ), l.getD (argmaxIdx l) 0 = listMax l := by
  intro l
  induction l with
  | nil => rfl
  | cons a t ih =>
    by_cases h : listMax t ≤ a
    · simp [argmaxIdx, h, listMax, max_eq_left h]
    · have hlt : a < listMax t := Nat.lt_of_not_le h
      simp only [argmaxIdx, if_neg h, listMax]
      rw [max_eq_right (le_of_lt hlt)]
      simpa using ih

theorem argmaxIdx_le_of_getD :
    ∀ {l : List ℕ} {j : ℕ}, j < l.length → l.getD j 0 = listMax l →
      argmaxIdx l ≤ j := by
  intro l
  induction l with
  | nil => intro j hj _; simp at hj
  | cons a t ih =>
    intro j hj hval
    by_cases h : listMax t ≤ a
    · simp [argmaxIdx, h]
    · have hlt : a < listMax t := Nat.lt_of_not_le h
      have hmax : listMax (a :: t) = listMax t := by
        simp only [listMax]
        exact max_eq_right (le_of_lt hlt)
      cases j with
      | zero =>
        rw [hmax] at hval
        simp only [List.getD] at hval
        exact absurd hval (by simpa using Nat.ne_of_lt hlt)
      | succ m =>
        simp only [argmaxIdx, if_neg h]
        have hm : m < t.length := by simpa using hj
        have hv : t.getD m 0 = listMax t := by
          rw [hmax] at hval
          simpa using hval
        exact Nat.succ_le_succ (ih hm hv)

theorem getD_eq_get {l : List α} {n : ℕ} (d : α) (h : n < l.length) :
    l.getD n d = l.get ⟨n, h⟩ := by
  rw [List.getD_eq_getElem?_getD, List.getElem?_eq_getElem h]
  rfl

theorem getD_mem {l : List α} {n : ℕ} (d : α) (h : n < l.length) :
    l.getD n d ∈ l := by
  rw [getD_eq_get d h]
  exact List.get_mem l n h

theorem mem_npUnique {y : List ℚ} {t : ℚ} : t ∈ npUnique y ↔ t ∈ y := by
  rw [npUnique, (List.perm_insertionSort _ _).mem_iff, List.mem_dedup]

theorem npUnique_nodup (y : List ℚ) : (npUnique y).Nodup :=
  (List.perm_insertionSort _ _).symm.nodup (List.nodup_dedup y)

theorem npUnique_sorted (y : List ℚ) : (npUnique y).Sorted (· ≤ ·) :=
  List.sorted_insertionSort _ _

theorem npUnique_ne_nil {y : List ℚ} (h : y ≠ []) : npUnique y ≠ [] := by
  rcases List.exists_cons_of_ne_nil h with ⟨a, t, rfl⟩
  intro hnil
  have hmem : a ∈ npUnique (a :: t) := mem_npUnique.2 (List.mem_cons_self _ _)
  rw [hnil] at hmem
  simp at hmem

theorem npUnique_pairwise_lt (y : List ℚ) : (npUnique y).Pairwise (· < ·) := by
  have hs : (npUnique y).Pairwise (· ≤ ·) := npUnique_sorted y
  have hn : (npUnique y).Pairwise (· ≠ ·) := npUnique_nodup y
  exact (hs.and hn).imp fun h => lt_of_le_of_ne h.1 h.2

theorem npUnique_getD_mono {y : List ℚ} {i j : ℕ} (hij : i ≤ j)
    (hj : j < (npUnique y).length) :
    (npUnique y).getD i 0 ≤ (npUnique y).getD j 0 := by
  rcases eq_or_lt_of_le hij with rfl | hlt
  · exact le_refl _
  · have hi : i < (npUnique y).length := lt_trans hlt hj
    have := List.pairwise_iff_get.1 (npUnique_pairwise_lt y) ⟨i, hi⟩ ⟨j, hj⟩ hlt
    rw [getD_eq_get 0 hi, getD_eq_get 0 hj]
    exact le_of_lt this

theorem knnCounts_length (y neigh : List ℚ) :
    (knnCounts y neigh).length = (npUnique y).length := by
  simp [knnCounts]

theorem knnCounts_getD {y neigh : List ℚ} {j : ℕ}
    (hj : j < (npUnique y).length) :
    (knnCounts y neigh).getD j 0 = neigh.count ((npUnique y).getD j 0) := by
  have hj' : j < (knnCounts y neigh).length := by
    rwa [knnCounts_length]
  rw [getD_eq_get 0 hj', getD_eq_get 0 hj]
  simp [knnCounts]

/-- Characterisation of a successful `KNN` call: the returned label is a
label of `y` whose vote count among the `K` nearest neighbours is maximal,
and it is the least label among all maximal ones (np.unique sorts
ascending, np.argmax takes the first maximum). -/
theorem KNN_char {x : List (List ℚ)} {y x_q : List ℚ} {K : ℤ} {d : List ℚ}
    (hy : y ≠ []) (hd : distanceList x x_q = some d) :
    ∃ t, KNN x y x_q K = some t ∧ t ∈ y ∧
      (neighborLabels y d K).count t
        = listMax (knnCounts y (neighborLabels y d K)) ∧
      ∀ s ∈ y, (neighborLabels y d K).count s
          = listMax (knnCounts y (neighborLabels y d K)) → t ≤ s := by
  have hTLne : npUnique y ≠ [] := npUnique_ne_nil hy
  have hcne : knnCounts y (neighborLabels y d K) ≠ [] := by
    intro hnil
    have hlen := knnCounts_length y (neighborLabels y d K)
    rw [hnil] at hlen
    exact hTLne (List.length_eq_zero.1 hlen.symm)
  have hidx : argmaxIdx (knnCounts y (neighborLabels y d K))
      < (knnCounts y (neighborLabels y d K)).length := argmaxIdx_lt hcne
  have hidx' : argmaxIdx (knnCounts y (neighborLabels y d K))
      < (npUnique y).length := by
    rwa [knnCounts_length] at hidx
  refine ⟨(npUnique y).getD
      (argmaxIdx (knnCounts y (neighborLabels y d K))) 0, ?_, ?_, ?_, ?_⟩
  · simp only [KNN]
    rw [hd]
    simp [hy]
  · exact mem_npUnique.1 (getD_mem 0 hidx')
  · rw [← knnCounts_getD hidx']
    exact getD_argmaxIdx _
  · intro s hs hsmax
    rcases List.mem_iff_get.1 (mem_npUnique.2 hs) with ⟨⟨j, hjlt⟩, hj⟩
    have hjD : (npUnique y).getD j 0 = s := by
      rw [getD_eq_get 0 hjlt]
      exact hj
    have hcj : (knnCounts y (neighborLabels y d K)).getD j 0
        = listMax (knnCounts y (neighborLabels y d K)) := by
      rw [knnCounts_getD hjlt, hjD]
      exact hsmax
    have hjlt' : j < (knnCounts y (neighborLabels y d K)).length := by
      rwa [knnCounts_length]
    have hle : argmaxIdx (knnCounts y (neighborLabels y d K)) ≤ j :=
      argmaxIdx_le_of_getD hjlt' hcj
    rw [← hjD]
    exact npUnique_getD_mono hle hjlt

theorem map_getD_range (y : List ℚ) :
    (List.range y.length).map (fun j => y.getD j 0) = y := by
  apply List.ext_getElem
  · simp
  · intro n h1 h2
    have hn : n < y.length := h2
    simp only [List.getElem_map, List.getElem_range]
    rw [getD_eq_get 0 hn]
    simp

theorem mismatches_le_length : ∀ (a b : List ℚ), mismatches a b ≤ a.length := by
  intro a
  induction a with
  | nil => intro b; cases b <;> simp [mismatches]
  | cons u as ih =>
    intro b
    cases b with
    | nil => simp [mismatches]
    | cons v bs =>
      simp only [mismatches, List.length_cons]
      have h1 : (if u = v then 0 else 1) ≤ 1 := by
        split <;> simp
      have h2 := ih bs
      omega

theorem mismatches_self : ∀ (a : List ℚ), mismatches a a = 0 := by
  intro a
  induction a with
  | nil => rfl
  | cons u as ih => simp [mismatches, ih]

theorem y_prediction_of_pointwise {x : List (List ℚ)} {y : List ℚ} {K : ℤ} :
    ∀ {ns : List ℕ},
      (∀ n ∈ ns, KNN x y (x.getD n []) K = some (y.getD n 0)) →
      y_prediction x y K ns = some (ns.map fun n => y.getD n 0) := by
  intro ns
  induction ns with
  | nil => intro _; rfl
  | cons n rest ih =>
    intro h
    have hn := h n (List.mem_cons_self _ _)
    have hrest := ih fun m hm => h m (List.mem_cons_of_mem _ hm)
    simp only [y_prediction]
    rw [hn, hrest]
    simp

theorem neighborLabels_one {y d : List ℚ} (hd : d ≠ []) :
    neighborLabels y d 1 = [y.getD ((argsort d).headI) 0] := by
  rcases List.exists_cons_of_ne_nil (argsort_ne_nil hd) with ⟨a, t, ha⟩
  rw [neighborLabels, pyTake_one, ha]
  simp

theorem neighborLabels_all {y d : List ℚ} {K : ℤ}
    (hK : (d.length : ℤ) ≤ K) :
    neighborLabels y d K = (argsort d).map fun j => y.getD j 0 := by
  rw [neighborLabels, pyTake_of_length_le]
  rw [argsort_length]
  exact hK

theorem neighborLabels_full_perm {y d : List ℚ} {K : ℤ}
    (hlen : d.length = y.length) (hK : (d.length : ℤ) ≤ K) :
    (neighborLabels y d K).Perm y := by
  rw [neighborLabels_all hK]
  have hperm : (argsort d).Perm (List.range y.length) := by
    have := argsort_perm d
    rwa [hlen] at this
  have := hperm.map fun j => y.getD j 0
  rwa [map_getD_range] at this

theorem KNN_eq_of_some {x : List (List ℚ)} {y x_q : List ℚ} {K : ℤ} {d : List ℚ}
    (hy : y ≠ []) (hd : distanceList x x_q = some d) :
    KNN x y x_q K = some ((npUnique y).getD
      (argmaxIdx (knnCounts y (neighborLabels y d K))) 0) := by
  simp only [KNN]
  rw [hd]
  simp [hy]

theorem count_eq_one_singleton {a t : ℚ} (h : List.count t [a] = 1) : t = a := by
  by_cases hta : a = t
  · exact hta.symm
  · rw [List.count_singleton] at h
    simp [hta] at h

theorem listMax_knnCounts_singleton {y : List ℚ} {a : ℚ} (ha : a ∈ y) :
    listMax (knnCounts y [a]) = 1 := by
  apply le_antisymm
  · apply listMax_le
    intro c hc
    rcases List.mem_map.1 hc with ⟨t, _, rfl⟩
    simpa using List.count_le_length t [a]
  · have hmem : (1 : ℕ) ∈ knnCounts y [a] := by
      apply List.mem_map.2
      refine ⟨a, mem_npUnique.2 ha, ?_⟩
      simp
    exact le_listMax hmem

theorem KNN_one_eq_nearest {x : List (List ℚ)} {y x_q d : List ℚ}
    (hx : x ≠ []) (hxy : y.length = x.length)
    (hd : distanceList x x_q = some d) :
    KNN x y x_q 1 = some (y.getD ((argsort d).headI) 0) := by
  have hdlen : d.length = x.length := distanceList_length hd
  have hdne : d ≠ [] := by
    intro h
    rw [h] at hdlen
    exact hx (List.length_eq_zero.1 hdlen.symm)
  have hy : y ≠ [] := by
    intro h
    rw [h] at hxy
    exact hx (List.length_eq_zero.1 hxy.symm)
  have h0 : (argsort d).headI < y.length := by
    rw [hxy, ← hdlen]
    exact argsort_headI_lt hdne
  have hamem : y.getD ((argsort d).headI) 0 ∈ y := getD_mem 0 h0
  rcases KNN_char (K := 1) hy hd with ⟨t, hKNN, _, htmax, _⟩
  rw [neighborLabels_one hdne] at htmax
  rw [listMax_knnCounts_singleton hamem] at htmax
  rw [hKNN, count_eq_one_singleton htmax]

/-- With pairwise-distinct reference rows of equal dimension, classifying
a training example against the dataset that contains it with `K = 1`
returns the example's own label: the point itself is the unique
zero-distance neighbour, so it heads the distance sort. -/
theorem KNN_self_point {x : List (List ℚ)} {y : List ℚ} {L n : ℕ}
    (hrows : ∀ r ∈ x, r.length = L) (hnd : x.Nodup)
    (hxy : y.length = x.length) (hn : n < x.length) :
    KNN x y (x.getD n []) 1 = some (y.getD n 0) := by
  have hq : x.getD n [] ∈ x := getD_mem [] hn
  have hqlen : (x.getD n []).length = L := hrows _ hq
  have hdims : ∀ r ∈ x, r.length = (x.getD n []).length := by
    intro r hr
    rw [hrows r hr, hqlen]
  rcases distanceList_some hdims with ⟨d, hd⟩
  have hdlen : d.length = x.length := distanceList_length hd
  have hx : x ≠ [] := by
    intro h
    rw [h] at hn
    simp at hn
  have hdne : d ≠ [] := by
    intro h
    rw [h] at hdlen
    exact hx (List.length_eq_zero.1 hdlen.symm)
  rw [KNN_one_eq_nearest hx hxy hd]
  have hdn : d.getD n 0 = 0 := by
    have hself := distanceList_getD hd hn
    rw [sqDistRow_self] at hself
    exact (Option.some_inj.1 hself).symm
  have hi0lt : (argsort d).headI < d.length := argsort_headI_lt hdne
  have hi0x : (argsort d).headI < x.length := by
    rw [← hdlen]
    exact hi0lt
  have hle : d.getD ((argsort d).headI) 0 ≤ d.getD n 0 :=
    argsort_headI_min hdne n (by rw [hdlen]; exact hn)
  have hge : 0 ≤ d.getD ((argsort d).headI) 0 :=
    sqDistRow_nonneg (distanceList_getD hd hi0x)
  have hzero : d.getD ((argsort d).headI) 0 = 0 :=
    le_antisymm (le_trans hle (le_of_eq hdn)) hge
  by_cases heq : (argsort d).headI = n
  · rw [heq]
  · exfalso
    have hne : x.getD ((argsort d).headI) [] ≠ x.getD n [] := by
      intro hxx
      apply heq
      rw [getD_eq_get [] hi0x, getD_eq_get [] hn] at hxx
      exact congrArg Fin.val ((hnd.get_inj_iff).1 hxx)
    have hlen2 : (x.getD ((argsort d).headI) []).length
        = (x.getD n []).length := by
      rw [hrows _ (getD_mem [] hi0x), hqlen]
    have hpos := sqDistRow_pos_of_ne hlen2 hne (distanceList_getD hd hi0x)
    rw [hzero] at hpos
    exact lt_irrefl 0 hpos

/-- Claim C1, counterexample: the dataset `x = [[0],[1],[2]]`,
`y = [0,1,1]` with `K = 3` satisfies `1 ≤ K ≤ N = 3`, yet the
leave-nothing-out training error is `1/3`, not zero — at the query
`[0]` the three nearest labels are `{0,1,1}` and the majority vote `1`
overrules the example's own label `0`.  The claim that the reported
training error is zero for every `1 ≤ K ≤ N` is therefore false. -/
theorem training_error_k3_nonzero :
    (1 : ℤ) ≤ 3 ∧ (3 : ℤ) ≤ ([[(0 : ℚ)], [1], [2]]).length ∧
      classification_error [[(0 : ℚ)], [1], [2]] [0, 1, 1] 3 ≠ some 0 := by
  refine ⟨by norm_num, by norm_num, ?_⟩
  have h : classification_error [[(0 : ℚ)], [1], [2]] [0, 1, 1] 3
      = some (1 / 3) := by
    norm_num [classification_error, y_prediction, mismatches,
      KNN, distanceList, sqDistRow, bsub, sumSq, npUnique, argsort, pyTake,
      neighborLabels, knnCounts, listMax, argmaxIdx, List.dedup,
      List.cons_ne_nil, List.range_succ]
    simp [List.count_cons]
  rw [h]
  intro hcontra
  have := Option.some_inj.1 hcontra
  norm_num at this

/-- Claim C1, amended: zero training error holds for `K = 1` (not for
every `1 ≤ K ≤ N`) whenever the feature vectors are pairwise distinct and
of equal dimension: each example is then the unique zero-distance nearest
neighbour of its own query, so every prediction equals the true label and
the reported error is `0`. -/
theorem training_error_zero_k1 {x : List (List ℚ)} {y : List ℚ} {L : ℕ}
    (hrows : ∀ r ∈ x, r.length = L) (hnd : x.Nodup)
    (hxy : y.length = x.length) (hy : y ≠ []) :
    classification_error x y 1 = some 0 := by
  have hpoint : ∀ n ∈ List.range y.length,
      KNN x y (x.getD n []) 1 = some (y.getD n 0) := by
    intro n hn
    have hnx : n < x.length := by
      rw [← hxy]
      exact List.mem_range.1 hn
    exact KNN_self_point hrows hnd hxy hnx
  have hpred := y_prediction_of_pointwise hpoint
  simp only [classification_error]
  rw [hpred, map_getD_range]
  simp [mismatches_self]

/-- Witness for `training_error_zero_k1` at the dataset `x = [[0],[1]]`,
`y = [0,1]`. -/
theorem training_error_zero_k1_witness :
    classification_error [[(0 : ℚ)], [1]] [0, 1] 1 = some 0 :=
  training_error_zero_k1 (L := 1) (by decide) (by decide) (by decide)
    (by decide)

theorem neighborLabels_zero (y d : List ℚ) : neighborLabels y d 0 = [] := by
  simp [neighborLabels, pyTake_zero]

theorem listMax_replicate_zero : ∀ n : ℕ, listMax (List.replicate n (0 : ℕ)) = 0 := by
  intro n
  induction n with
  | zero => rfl
  | succ m ih => simp [List.replicate, listMax, ih]

theorem argmaxIdx_knnCounts_nil {y : List ℚ} :
    argmaxIdx (knnCounts y []) = 0 := by
  have h : knnCounts y [] = (npUnique y).map fun _ => (0 : ℕ) := by
    simp [knnCounts]
  rw [h]
  cases hTL : npUnique y with
  | nil => rfl
  | cons t rest => simp [argmaxIdx, listMax_replicate_zero]

/-- Claim C2, counterexample: `KNN` performs no validation of `K` at all.
With `K = 0` (which satisfies `K ≤ 0`) the call does not fail with any
error: the slice `y[i[0:0]]` is empty, every label count is zero, and
`np.argmax` of the all-zero count vector picks index 0, so the smallest
distinct label is returned. -/
theorem knn_k0_returns_label :
    (0 : ℤ) ≤ 0 ∧ KNN [[(0 : ℚ)], [1]] [0, 1] [0] 0 = some 0 := by
  refine ⟨le_refl 0, ?_⟩
  norm_num [KNN, distanceList, sqDistRow, bsub, sumSq, npUnique, argsort,
    pyTake, neighborLabels, knnCounts, listMax, argmaxIdx, List.dedup,
    List.count_cons, List.count_nil, List.cons_ne_nil]

/-- Claim C2, amended: for `K ≤ 0` (dimensions matching, labels
non-empty) `KNN` raises no error and returns a label; in particular for
`K = 0` the neighbourhood slice is empty, all vote counts are zero, and
the smallest distinct label — the head of the sorted unique labels — is
returned. -/
theorem knn_nonpos_K_no_error {x : List (List ℚ)} {y x_q : List ℚ} {K : ℤ}
    (hK : K ≤ 0) (hy : y ≠ [])
    (hdim : ∀ r ∈ x, r.length = x_q.length) :
    (∃ l, KNN x y x_q K = some l) ∧
      KNN x y x_q 0 = some ((npUnique y).headI) := by
  rcases distanceList_some hdim with ⟨d, hd⟩
  constructor
  · rcases KNN_char (K := K) hy hd with ⟨t, ht, _, _, _⟩
    exact ⟨t, ht⟩
  · rw [KNN_eq_of_some hy hd, neighborLabels_zero, argmaxIdx_knnCounts_nil]
    rcases List.exists_cons_of_ne_nil (npUnique_ne_nil hy) with ⟨t, rest, htl⟩
    rw [htl]
    rfl

/-- Witness for `knn_nonpos_K_no_error` at `K = -1`. -/
theorem knn_nonpos_K_no_error_witness :
    (∃ l, KNN [[(0 : ℚ)], [1]] [0, 1] [0] (-1) = some l) ∧
      KNN [[(0 : ℚ)], [1]] [0, 1] [0] 0 = some ((npUnique [(0 : ℚ), 1]).headI) :=
  knn_nonpos_K_no_error (by norm_num) (by decide) (by decide)

/-- Claim C3: when two or more distinct labels attain the equal maximal
vote count among the K nearest neighbours, `KNN` returns the smallest
such label — `np.unique` scans labels in ascending order and `np.argmax`
takes the first maximal count. -/
theorem knn_tie_smallest {x : List (List ℚ)} {y x_q : List ℚ} {K : ℤ}
    {d : List ℚ} {t1 t2 : ℚ}
    (hy : y ≠ []) (hd : distanceList x x_q = some d)
    (ht1 : t1 ∈ y) (ht2 : t2 ∈ y) (hne : t1 ≠ t2)
    (hmax : ∀ s ∈ y,
      (neighborLabels y d K).count s ≤ (neighborLabels y d K).count t1)
    (htie : (neighborLabels y d K).count t2
      = (neighborLabels y d K).count t1) :
    ∃ t, KNN x y x_q K = some t ∧
      (neighborLabels y d K).count t = (neighborLabels y d K).count t1 ∧
      ∀ s ∈ y, (neighborLabels y d K).count s
          = (neighborLabels y d K).count t1 → t ≤ s := by
  have hmaxC : listMax (knnCounts y (neighborLabels y d K))
      = (neighborLabels y d K).count t1 := by
    apply le_antisymm
    · apply listMax_le
      intro c hc
      rcases List.mem_map.1 hc with ⟨s, hs, rfl⟩
      exact hmax s (mem_npUnique.1 hs)
    · exact le_listMax (List.mem_map.2 ⟨t1, mem_npUnique.2 ht1, rfl⟩)
  rcases KNN_char (K := K) hy hd with ⟨t, ht, htm, htcount, hleast⟩
  refine ⟨t, ht, ?_, ?_⟩
  · rw [htcount, hmaxC]
  · intro s hs hscount
    exact hleast s hs (by rw [hscount, hmaxC])

/-- Witness for `knn_tie_smallest`: reference `[[0],[1]]` with labels
`[0,1]`, query `[0]`, `K = 2` — both labels receive one vote and the
smaller label `0` wins. -/
theorem knn_tie_smallest_witness :
    ∃ t, KNN [[(0 : ℚ)], [1]] [0, 1] [0] 2 = some t ∧
      (neighborLabels [(0 : ℚ), 1] [0, 1] 2).count t
        = (neighborLabels [(0 : ℚ), 1] [0, 1] 2).count 0 ∧
      ∀ s ∈ [(0 : ℚ), 1], (neighborLabels [(0 : ℚ), 1] [0, 1] 2).count s
          = (neighborLabels [(0 : ℚ), 1] [0, 1] 2).count 0 → t ≤ s :=
  knn_tie_smallest (by decide)
    (by norm_num [distanceList, sqDistRow, bsub, sumSq])
    (show (0 : ℚ) ∈ [(0 : ℚ), 1] by decide)
    (show (1 : ℚ) ∈ [(0 : ℚ), 1] by decide)
    (by decide) (by decide) (by decide)

/-- Claim C4: with `K = 1` on a non-empty reference dataset, `KNN`
returns the label of the reference example placed first by the distance
sort (the single nearest neighbour); no vote tie is possible. -/
theorem knn_k1_nearest {x : List (List ℚ)} {y x_q d : List ℚ}
    (hx : x ≠ []) (hxy : y.length = x.length)
    (hd : distanceList x x_q = some d) :
    KNN x y x_q 1 = some (y.getD ((argsort d).headI) 0) :=
  KNN_one_eq_nearest hx hxy hd

/-- Witness for `knn_k1_nearest`: the spec's own example — reference
points `(0,0) ↦ 0` and `(10,10) ↦ 1`, query `(1,1)`, `K = 1` predicts
label `0`. -/
theorem knn_k1_nearest_witness :
    KNN [[(0 : ℚ), 0], [10, 10]] [0, 1] [1, 1] 1
      = some ([(0 : ℚ), 1].getD ((argsort [2, 162]).headI) 0) :=
  knn_k1_nearest (by decide) (by decide)
    (by norm_num [distanceList, sqDistRow, bsub, sumSq])

/-- Claim C5: with `K = N` (the full dataset size) the returned label is
a most frequent label of the whole label vector, and among equally
frequent labels the smallest one (the classifier's tie-break rule). -/
theorem knn_full_K_majority {x : List (List ℚ)} {y x_q : List ℚ}
    {d : List ℚ}
    (hxy : y.length = x.length) (hy : y ≠ [])
    (hd : distanceList x x_q = some d) :
    ∃ t, KNN x y x_q (x.length : ℤ) = some t ∧ t ∈ y ∧
      (∀ s ∈ y, y.count s ≤ y.count t) ∧
      (∀ s ∈ y, y.count s = y.count t → t ≤ s) := by
  have hdx : d.length = x.length := distanceList_length hd
  have hdlen : d.length = y.length := by
    rw [hdx, hxy]
  have hK : (d.length : ℤ) ≤ (x.length : ℤ) := by
    rw [hdx]
  have hperm := neighborLabels_full_perm (K := (x.length : ℤ)) hdlen hK
  have hcount : ∀ s : ℚ,
      (neighborLabels y d (x.length : ℤ)).count s = y.count s :=
    fun s => hperm.count_eq s
  rcases KNN_char (K := (x.length : ℤ)) hy hd with ⟨t, ht, htm, htmax, hleast⟩
  refine ⟨t, ht, htm, ?_, ?_⟩
  · intro s hs
    rw [← hcount s, ← hcount t, htmax]
    exact le_listMax (List.mem_map.2 ⟨s, mem_npUnique.2 hs, rfl⟩)
  · intro s hs hsc
    apply hleast s hs
    rw [hcount s, hsc, ← hcount t, htmax]

/-- Witness for `knn_full_K_majority` on `x = [[0],[1],[2]]`,
`y = [0,1,1]`, query `[0]`: the global majority label is `1`. -/
theorem knn_full_K_majority_witness :
    ∃ t, KNN [[(0 : ℚ)], [1], [2]] [0, 1, 1] [0]
        (([[(0 : ℚ)], [1], [2]]).length : ℤ) = some t ∧ t ∈ [(0 : ℚ), 1, 1] ∧
      (∀ s ∈ [(0 : ℚ), 1, 1], [(0 : ℚ), 1, 1].count s ≤ [(0 : ℚ), 1, 1].count t) ∧
      (∀ s ∈ [(0 : ℚ), 1, 1], [(0 : ℚ), 1, 1].count s = [(0 : ℚ), 1, 1].count t → t ≤ s) :=
  knn_full_K_majority (d := [0, 1, 4]) (by decide) (by decide)
    (by norm_num [distanceList, sqDistRow, bsub, sumSq])

/-- Claim C6: for a non-empty dataset the reported classification error
equals the number of mismatched predictions divided by `N`, and this
value lies in `[0, 1]`. -/
theorem classification_error_unit_interval {x : List (List ℚ)}
    {y : List ℚ} {K : ℤ} {e : ℚ} (hy : y ≠ [])
    (he : classification_error x y K = some e) :
    (∃ preds, y_prediction x y K (List.range y.length) = some preds ∧
      e = (mismatches y preds : ℚ) / (y.length : ℚ)) ∧ 0 ≤ e ∧ e ≤ 1 := by
  simp only [classification_error] at he
  cases hp : y_prediction x y K (List.range y.length) with
  | none =>
    rw [hp] at he
    exact absurd he (by simp)
  | some preds =>
    rw [hp] at he
    have heq : e = (mismatches y preds : ℚ) / (y.length : ℚ) := by
      simpa using he.symm
    have hN : 0 < y.length := List.length_pos.2 hy
    have hNq : (0 : ℚ) < (y.length : ℚ) := by exact_mod_cast hN
    have hm : mismatches y preds ≤ y.length := mismatches_le_length y preds
    have hmq : ((mismatches y preds : ℚ)) ≤ (y.length : ℚ) := by
      exact_mod_cast hm
    refine ⟨⟨preds, rfl, heq⟩, ?_, ?_⟩
    · rw [heq]
      exact div_nonneg (Nat.cast_nonneg _) (le_of_lt hNq)
    · rw [heq, div_le_one hNq]
      exact hmq

/-- Witness for `classification_error_unit_interval` at the dataset
`[[0],[1],[2]]`, `y = [0,1,1]`, `K = 3`, whose error is `1/3`. -/
theorem classification_error_unit_interval_witness :
    (∃ preds, y_prediction [[(0 : ℚ)], [1], [2]] [0, 1, 1] 3
        (List.range ([(0 : ℚ), 1, 1]).length) = some preds ∧
      (1 / 3 : ℚ) = (mismatches [(0 : ℚ), 1, 1] preds : ℚ)
        / (([(0 : ℚ), 1, 1]).length : ℚ)) ∧
      (0 : ℚ) ≤ 1 / 3 ∧ (1 / 3 : ℚ) ≤ 1 :=
  classification_error_unit_interval (by decide)
    (show classification_error [[(0 : ℚ)], [1], [2]] [0, 1, 1] 3
        = some (1 / 3) from by
      norm_num [classification_error, y_prediction, mismatches,
        KNN, distanceList, sqDistRow, bsub, sumSq, npUnique, argsort, pyTake,
        neighborLabels, knnCounts, listMax, argmaxIdx, List.dedup,
        List.cons_ne_nil, List.range_succ]
      simp [List.count_cons])

/-- Claim C7: the evaluator and the classifier are deterministic, pure
functions of their inputs — evaluating twice on identical data with the
same `K` yields identical results, with no hidden state between runs. -/
theorem knn_evaluation_deterministic (u v : List (List ℚ))
    (y z : List ℚ) (J K : ℤ)
    (hx : u = v) (hy : y = z) (hK : J = K) :
    classification_error u y J = classification_error v z K ∧
      ∀ q : List ℚ, KNN u y q J = KNN v z q K := by
  subst hx
  subst hy
  subst hK
  exact ⟨rfl, fun _ => rfl⟩

/-- Witness for `knn_evaluation_deterministic` at a concrete dataset. -/
theorem knn_evaluation_deterministic_witness :
    classification_error [[(0 : ℚ)], [1]] [0, 1] 1
        = classification_error [[(0 : ℚ)], [1]] [0, 1] 1 ∧
      ∀ q : List ℚ, KNN [[(0 : ℚ)], [1]] [0, 1] q 1
        = KNN [[(0 : ℚ)], [1]] [0, 1] q 1 :=
  knn_evaluation_deterministic [[(0 : ℚ)], [1]] [[(0 : ℚ)], [1]]
    [0, 1] [0, 1] 1 1 rfl rfl rfl

/-- Claim C8, counterexample: a query whose dimensionality differs from
the reference vectors does not always fail — numpy broadcasting accepts a
length-1 query against length-2 reference rows, and `KNN` happily
returns a label. -/
theorem knn_dim1_broadcast_returns_label :
    ([(5 : ℚ)]).length ≠ ([(0 : ℚ), 0]).length ∧
      KNN [[(0 : ℚ), 0], [1, 1]] [0, 1] [5] 1 = some 1 := by
  refine ⟨by decide, ?_⟩
  norm_num [KNN, distanceList, sqDistRow, bsub, sumSq, npUnique, argsort,
    pyTake, neighborLabels, knnCounts, listMax, argmaxIdx, List.dedup,
    List.count_cons, List.count_nil, List.cons_ne_nil]

/-- Claim C8, amended: `KNN` fails (returns no label) when the query's
dimensionality differs from that of a reference row and neither length
is 1; when either length is 1, numpy broadcasting applies silently and a
label is returned instead. -/
theorem knn_dim_mismatch_none {x : List (List ℚ)} {y x_q : List ℚ}
    {K : ℤ} {row : List ℚ} (hrow : row ∈ x)
    (h1 : row.length ≠ x_q.length) (h2 : x_q.length ≠ 1)
    (h3 : row.length ≠ 1) :
    KNN x y x_q K = none := by
  have hb : bsub row x_q = none := by
    simp [bsub, h1, h2, h3]
  have hs : sqDistRow row x_q = none := by
    simp [sqDistRow, hb]
  have hd : distanceList x x_q = none := distanceList_none hrow hs
  simp only [KNN]
  rw [hd]

/-- Witness for `knn_dim_mismatch_none`: a 3-dimensional query against a
2-dimensional reference row raises. -/
theorem knn_dim_mismatch_none_witness :
    KNN [[(0 : ℚ), 0]] [0] [1, 2, 3] 1 = none :=
  knn_dim_mismatch_none
    (show [(0 : ℚ), 0] ∈ [[(0 : ℚ), 0]] by decide)
    (by decide) (by decide) (by decide)

/-- Claim C9: for `K` greater than the dataset size the slice `i[0:K]`
silently clamps to the whole dataset — `KNN` raises no error and returns
the same label as `K = N`. -/
theorem knn_K_gt_N_clamps {x : List (List ℚ)} {y x_q : List ℚ} {K : ℤ}
    (hK : (x.length : ℤ) < K) (hy : y ≠ [])
    (hdim : ∀ r ∈ x, r.length = x_q.length) :
    ∃ l, KNN x y x_q K = some l ∧ KNN x y x_q (x.length : ℤ) = some l := by
  rcases distanceList_some hdim with ⟨d, hd⟩
  have hdx : d.length = x.length := distanceList_length hd
  have hK1 : (d.length : ℤ) ≤ K := by
    rw [hdx]
    exact le_of_lt hK
  have hK2 : (d.length : ℤ) ≤ (x.length : ℤ) := by
    rw [hdx]
  have hneq : neighborLabels y d K = neighborLabels y d (x.length : ℤ) := by
    rw [neighborLabels_all hK1, neighborLabels_all hK2]
  refine ⟨(npUnique y).getD
      (argmaxIdx (knnCounts y (neighborLabels y d (x.length : ℤ)))) 0, ?_, ?_⟩
  · rw [KNN_eq_of_some hy hd, hneq]
  · rw [KNN_eq_of_some hy hd]

/-- Witness for `knn_K_gt_N_clamps` with `N = 2` and `K = 5`. -/
theorem knn_K_gt_N_clamps_witness :
    ∃ l, KNN [[(0 : ℚ)], [1]] [0, 1] [0] 5 = some l ∧
      KNN [[(0 : ℚ)], [1]] [0, 1] [0] (([[(0 : ℚ)], [1]]).length : ℤ) = some l :=
  knn_K_gt_N_clamps (by decide) (by decide) (by decide)

/-- Claim C10: any label returned by `KNN` (non-empty `y`, `K ≥ 1`) is an
element of the label vector `y`: the result is `target_labels[l]` and
`target_labels = np.unique(y)` only contains values from `y`. -/
theorem knn_label_mem_y {x : List (List ℚ)} {y x_q : List ℚ} {K : ℤ}
    (hK : 1 ≤ K) (hy : y ≠ []) {l : ℚ}
    (h : KNN x y x_q K = some l) : l ∈ y := by
  cases hd : distanceList x x_q with
  | none =>
    simp only [KNN] at h
    rw [hd] at h
    exact absurd h (by simp)
  | some d =>
    rcases KNN_char (K := K) hy hd with ⟨t, ht, htm, _, _⟩
    rw [ht] at h
    exact Option.some_inj.1 h ▸ htm

/-- Witness for `knn_label_mem_y`: the label returned on `[[0],[1]]`,
`y = [0,1]`, query `[0]`, `K = 1` is a member of `y`. -/
theorem knn_label_mem_y_witness : (0 : ℚ) ∈ [(0 : ℚ), 1] :=
  knn_label_mem_y (by decide) (by decide)
    (show KNN [[(0 : ℚ)], [1]] [0, 1] [0] 1 = some 0 from by
      norm_num [KNN, distanceList, sqDistRow, bsub, sumSq, npUnique,
        argsort, pyTake, neighborLabels, knnCounts, listMax, argmaxIdx,
        List.dedup, List.count_cons, List.count_nil, List.cons_ne_nil])
